import Mathlib

/-!
Verification of the xv6 custom shell (`user/my_shell.c`).

The C program is shallowly embedded: the mutable, NUL-terminated line buffer
is modelled as a `List Char` holding the characters before the terminator
(the buffer produced by `gets` contains no embedded NUL until parsing inserts
terminators).  In-place NUL insertion during parsing is modelled by splitting
the list; a fatal call to `error` (fprintf to fd 2 followed by `exit(1)`) is
modelled by an `Except.error` result carrying the message and the exit status.
-/

set_option autoImplicit false

deriving instance DecidableEq for Except

namespace MyShell

/-- Characters of the C array `char whitespace[6] = " \t\r\n\v";` (line 15). -/
def whitespace : List Char := [' ', '\t', '\r', '\n', '\x0B']

/-- Test `strchr(whitespace, c) != NULL` used throughout the parser.  The xv6
library `strchr` scans while `*s` is nonzero, so it never matches the
terminating NUL: the test is exactly membership in the five characters. -/
def isWs (c : Char) : Bool := whitespace.contains c

/-- Test `strchr(whitespace, c) == NULL`, i.e. `c` is not a separator. -/
def nonWs (c : Char) : Bool := !(isWs c)

/-- xv6 `strchr`: position of the first occurrence of `c` in the buffer
(`none` models the NULL return).  Pointers into the buffer are modelled as
indices. -/
def strchr : List Char → Char → Option Nat
  | [], _ => none
  | a :: s, c => if a = c then some 0 else (strchr s c).map (· + 1)

/-- Custom `strrchr` of `my_shell.c` (lines 48-57): position of the last
occurrence of `c`.  The C loop starts at the terminator and walks down; for
the nonzero characters it is called with, that is the last occurrence. -/
def strrchr : List Char → Char → Option Nat
  | [], _ => none
  | a :: s, c =>
      match strrchr s c with
      | some i => some (i + 1)
      | none => if a = c then some 0 else none

/-- A fatal diagnostic: `error` (lines 21-26) prints the message to the error
stream and exits with the recorded status. -/
structure FatalError where
  message : List Char
  status : Nat
deriving DecidableEq, Repr

/-- `error` (lines 21-26): `fprintf(2, "%s\n", message); exit(1);`. -/
def error (message : List Char) : FatalError := ⟨message, 1⟩

/-- The message passed to `error` at line 473. -/
def failed_filename_msg : List Char := "Failed to parse filename for redirection".toList

/-- The line printed by `fprintf` at line 201 (`"Failed to execute %s\n"`). -/
def failed_to_execute_msg (prog : List Char) : List Char :=
  "Failed to execute ".toList ++ prog ++ ['\n']

/-- Modelled from the spec: the open-mode flag `O_RDONLY` comes from
`kernel/fcntl.h`, which is not part of the shell source; the value is the
standard xv6-riscv one. -/
def O_RDONLY : Nat := 0x000

/-- Modelled from the spec: `O_WRONLY` from `kernel/fcntl.h` (see `O_RDONLY`). -/
def O_WRONLY : Nat := 0x001

/-- Modelled from the spec: `O_CREATE` from `kernel/fcntl.h` (see `O_RDONLY`). -/
def O_CREATE : Nat := 0x200

/-- The command tree (lines 59-99): the four-variant tagged union built from
`ExecuteCommand`, `ListCommand`, `PipeCommand` and `RedirectionCommand`.
Argument and file-name strings are the token contents (the bytes up to the
terminator inserted by the parser). -/
inductive Command where
  | execute (argv : List (List Char))
  | list (left : Command) (right : Command)
  | pipe (left : Command) (right : Command)
  | redirection (cmd : Command) (fileName : List Char) (fileMode : Nat)
      (fileDescriptor : Nat)
deriving DecidableEq, Repr

/-- Lines 444-455 of `parse_redirection`, together with
`create_redirection_command` (lines 150-166): build the `Redirect` node from
the direction character found at the split point. -/
def create_redirection_from_direction (direction : Char) (inner : Command)
    (fname : List Char) : Command :=
  if direction = '<' then Command.redirection inner fname O_RDONLY 0
  else Command.redirection inner fname (O_WRONLY ||| O_CREATE) 1

/-- `parse_redirection_file_name` (lines 458-476): skip leading separators,
take the maximal run of non-separator characters and terminate it in place;
an empty result is the fatal error of line 473. -/
def parse_redirection_file_name (buffer : List Char) :
    Except FatalError (List Char) :=
  let b := buffer.dropWhile isWs
  let output := b.takeWhile nonWs
  if output = [] then Except.error (error failed_filename_msg)
  else Except.ok output

/-- The argument loop of `parse_execute` (lines 360-388).  `argv[argi]` has
just been assigned the current buffer position; `cap` is
`MAXIMUM_ARGUMENTS - argi`, so `cap > 0` exactly when the loop guard
`argi < 16` holds, which makes the recursion structural.  Each returned pair
`(j, s)` records the assignment `p_command->argv[j] = s` performed at line
382, where `s` is the buffer suffix at that moment.  Scanning the current
token is `dropWhile nonWs` (the `buffer++` steps of line 387); the single
separator overwritten with NUL at line 370 is the head of that remainder, and
the following separator run is skipped at lines 375-376. -/
def parse_execute_loop : Nat → Nat → List Char → List (Nat × List Char)
  | 0, _, _ => []
  | cap + 1, argi, buffer =>
      match buffer.dropWhile nonWs with
      | [] => []
      | _ :: tail =>
          match tail.dropWhile isWs with
          | [] => []
          | c :: cs => (argi + 1, c :: cs) :: parse_execute_loop cap (argi + 1) (c :: cs)

/-- The full sequence of `argv` assignments performed by `parse_execute`
(lines 342-391): skip leading separators (lines 346-347), return nothing for
an empty remainder (line 353), otherwise record the initial assignment
`argv[0] = buffer` (line 357) followed by the loop's assignments. -/
def parse_execute_writes (buffer : List Char) : List (Nat × List Char) :=
  match buffer.dropWhile isWs with
  | [] => []
  | c :: cs => (0, c :: cs) :: parse_execute_loop 16 0 (c :: cs)

/-- The string value an argument pointer designates once parsing has
terminated its token: the characters up to the first separator (which the
loop overwrites with NUL) or the end of the buffer. -/
def token_value (w : Nat × List Char) : List Char := w.2.takeWhile nonWs

/-- The argument list of the `ExecuteCommand`: the values of the slots of
`char* argv[MAXIMUM_ARGUMENTS]` that are inside the 16-element array.  (The
loop can also perform one assignment at index 16; that write is outside the
array, see `parse_execute_argv`.) -/
def parse_execute_args (buffer : List Char) : List (List Char) :=
  ((parse_execute_writes buffer).filter (fun w => decide (w.1 < 16))).map token_value

/-- `parse_execute` (lines 342-391): the resulting `Execute` node. -/
def parse_execute (buffer : List Char) : Command :=
  Command.execute (parse_execute_args buffer)

/-- One pointer store `argv[w.1] = w.2` into the (model of the) memory
starting at `argv`, indexed over all of `Nat` so that the store at index 16
— outside `char* argv[MAXIMUM_ARGUMENTS]` — is visible. -/
def argv_write (a : Nat → Option (List Char)) (w : Nat × List Char) :
    Nat → Option (List Char) :=
  fun j => if j = w.1 then some w.2 else a j

/-- The memory at `argv` after `parse_execute` runs: `create_execute_command`
(lines 104-113) zeroes the structure with `memset`, then the recorded
assignments are applied in order. -/
def parse_execute_argv (buffer : List Char) : Nat → Option (List Char) :=
  (parse_execute_writes buffer).foldl argv_write (fun _ => none)

/-- `parse_command` (lines 287-340), with explicit recursion fuel so that the
definition is structural (each recursive call is on a strictly shorter
buffer, so `buffer.length + 1` fuel always suffices; see
`parse_command_rec_congr`).  The branch bodies inline `parse_list`
(lines 393-408), `parse_pipe` (lines 410-425) and `parse_redirection`
(lines 427-456): terminating the split character in place yields
`buffer.take i` for the left part and `buffer.drop (i+1)` for the right. -/
def parse_command_rec : Nat → List Char → Except FatalError Command
  | 0, _ => Except.error ⟨"unreachable with sufficient fuel".toList, 0⟩
  | fuel + 1, buffer =>
    match strchr buffer ';' with
    | some i =>
        (parse_command_rec fuel (buffer.take i)).bind fun left =>
        (parse_command_rec fuel (buffer.drop (i + 1))).bind fun right =>
        Except.ok (Command.list left right)
    | none =>
      match strchr buffer '|' with
      | some i =>
          (parse_command_rec fuel (buffer.take i)).bind fun left =>
          (parse_command_rec fuel (buffer.drop (i + 1))).bind fun right =>
          Except.ok (Command.pipe left right)
      | none =>
        match strrchr buffer '>', strrchr buffer '<' with
        | some j, none =>
            (parse_command_rec fuel (buffer.take j)).bind fun inner =>
            (parse_redirection_file_name (buffer.drop (j + 1))).bind fun fname =>
            Except.ok (create_redirection_from_direction (buffer.getD j ' ') inner fname)
        | none, some j =>
            (parse_command_rec fuel (buffer.take j)).bind fun inner =>
            (parse_redirection_file_name (buffer.drop (j + 1))).bind fun fname =>
            Except.ok (create_redirection_from_direction (buffer.getD j ' ') inner fname)
        | some jr, some jl =>
            (parse_command_rec fuel (buffer.take (if jr < jl then jl else jr))).bind fun inner =>
            (parse_redirection_file_name (buffer.drop ((if jr < jl then jl else jr) + 1))).bind fun fname =>
            Except.ok (create_redirection_from_direction
              (buffer.getD (if jr < jl then jl else jr) ' ') inner fname)
        | none, none => Except.ok (parse_execute buffer)

/-- `parse_command` (lines 287-340). -/
def parse_command (buffer : List Char) : Except FatalError Command :=
  parse_command_rec (buffer.length + 1) buffer

/-- `parse_list` (lines 393-408): terminate the buffer at the split index,
parse both sides, and build a `ListCommand`. -/
def parse_list (buffer : List Char) (i : Nat) : Except FatalError Command :=
  (parse_command (buffer.take i)).bind fun left =>
  (parse_command (buffer.drop (i + 1))).bind fun right =>
  Except.ok (Command.list left right)

/-- `parse_pipe` (lines 410-425). -/
def parse_pipe (buffer : List Char) (i : Nat) : Except FatalError Command :=
  (parse_command (buffer.take i)).bind fun left =>
  (parse_command (buffer.drop (i + 1))).bind fun right =>
  Except.ok (Command.pipe left right)

/-- `parse_redirection` (lines 427-456): read the direction character at the
split, terminate the buffer there, parse the inner command, parse the file
name from the remainder, and build the `RedirectionCommand`. -/
def parse_redirection (buffer : List Char) (i : Nat) : Except FatalError Command :=
  (parse_command (buffer.take i)).bind fun inner =>
  (parse_redirection_file_name (buffer.drop (i + 1))).bind fun fname =>
  Except.ok (create_redirection_from_direction (buffer.getD i ' ') inner fname)

/-- Observable behaviour of one `run_command` invocation on an `Execute`
node: the `exec` calls issued, the lines written to the error stream, and the
exit status (`none` when `exec` succeeded and replaced the process image). -/
structure ExecTrace where
  execCalls : List (List Char × List (List Char))
  errOutput : List (List Char)
  exitStatus : Option Nat
deriving DecidableEq, Repr

/-- The `execute_command` branch of `run_command` (lines 193-202) together
with the fall-through `exit(0)` at line 271.  `execOk` says whether the
`exec` primitive succeeds (in which case it does not return).  An empty
argument list exits with status 1 at line 198 without calling `exec`; a
failed `exec` prints `"Failed to execute %s\n"` and reaches `exit(0)`. -/
def run_command_execute (argv : List (List Char)) (execOk : Bool) : ExecTrace :=
  match argv with
  | [] => ⟨[], [], some 1⟩
  | prog :: rest =>
      if execOk then ⟨[(prog, prog :: rest)], [], none⟩
      else ⟨[(prog, prog :: rest)], [failed_to_execute_msg prog], some 0⟩

/-- Specification-side tokenizer, written from the spec's words for the
refinement claims: the whitespace-separated tokens of a line, scanned left to
right.  `none` is the between-tokens state; `some cur` carries the (reversed)
characters of the token being read. -/
def spec_tokens_go : Option (List Char) → List Char → List (List Char)
  | none, [] => []
  | some cur, [] => [cur.reverse]
  | none, c :: cs =>
      if isWs c then spec_tokens_go none cs else spec_tokens_go (some [c]) cs
  | some cur, c :: cs =>
      if isWs c then cur.reverse :: spec_tokens_go none cs
      else spec_tokens_go (some (c :: cur)) cs

/-- Specification-side: the whitespace-separated tokens of a line. -/
def spec_tokens (line : List Char) : List (List Char) :=
  spec_tokens_go none line

/-- Proof scaffolding: the list `[s, s+1, ..., s+n-1]` of `n` consecutive
naturals, used to describe the indices of the recorded `argv` assignments. -/
def consecFrom : Nat → Nat → List Nat
  | _, 0 => []
  | s, n + 1 => s :: consecFrom (s + 1) n

/-! ### List helper lemmas -/

theorem dropWhile_head_false {α : Type} {p : α → Bool} :
    ∀ {l : List α} {c : α} {cs : List α}, l.dropWhile p = c :: cs → p c = false := by
  intro l
  induction l with
  | nil => intro c cs h; simp [List.dropWhile] at h
  | cons a as ih =>
    intro c cs h
    by_cases hp : p a
    · rw [List.dropWhile_cons_of_pos hp] at h
      exact ih h
    · rw [List.dropWhile_cons_of_neg hp] at h
      cases h
      exact Bool.of_not_eq_true hp

theorem dropWhile_nil_of_all {α : Type} {p : α → Bool} :
    ∀ {l : List α}, (∀ x ∈ l, p x = true) → l.dropWhile p = [] := by
  intro l
  induction l with
  | nil => intro _; rfl
  | cons a as ih =>
    intro h
    rw [List.dropWhile_cons_of_pos (h a (by simp))]
    exact ih fun x hx => h x (by simp [hx])

/-! ### Lemmas about `strchr` and `strrchr` -/

theorem strchr_lt {s : List Char} {c : Char} {i : Nat}
    (h : strchr s c = some i) : i < s.length := by
  induction s generalizing i with
  | nil => simp [strchr] at h
  | cons a as ih =>
    by_cases ha : a = c
    · simp [strchr, ha] at h
      simp only [List.length_cons]
      omega
    · simp [strchr, ha] at h
      obtain ⟨j, hj, rfl⟩ := h
      have := ih hj
      simp
      omega

theorem strrchr_lt {s : List Char} {c : Char} {i : Nat}
    (h : strrchr s c = some i) : i < s.length := by
  induction s generalizing i with
  | nil => simp [strrchr] at h
  | cons a as ih =>
    simp only [strrchr] at h
    cases hr : strrchr as c with
    | some j =>
      rw [hr] at h
      cases h
      have := ih hr
      simp
      omega
    | none =>
      rw [hr] at h
      by_cases ha : a = c
      · simp [ha] at h
        simp only [List.length_cons]
        omega
      · simp [ha] at h

theorem strchr_eq_none {s : List Char} {c : Char}
    (h : ∀ x ∈ s, x ≠ c) : strchr s c = none := by
  induction s with
  | nil => rfl
  | cons a as ih =>
    simp only [strchr, if_neg (h a (by simp)), ih fun x hx => h x (by simp [hx])]
    rfl

theorem strrchr_eq_none {s : List Char} {c : Char}
    (h : ∀ x ∈ s, x ≠ c) : strrchr s c = none := by
  induction s with
  | nil => rfl
  | cons a as ih =>
    simp only [strrchr, ih fun x hx => h x (by simp [hx])]
    rw [if_neg (h a (by simp))]

/-! ### Fuel adequacy for `parse_command_rec` -/

theorem parse_command_rec_congr :
    ∀ (f₁ f₂ : Nat) (b : List Char), b.length < f₁ → b.length < f₂ →
      parse_command_rec f₁ b = parse_command_rec f₂ b := by
  intro f₁
  induction f₁ with
  | zero => intro f₂ b h1 _; exact absurd h1 (Nat.not_lt_zero _)
  | succ g₁ ih =>
    intro f₂ b h1 h2
    cases f₂ with
    | zero => exact absurd h2 (Nat.not_lt_zero _)
    | succ g₂ =>
      have hb1 : b.length ≤ g₁ := Nat.lt_succ_iff.mp h1
      have hb2 : b.length ≤ g₂ := Nat.lt_succ_iff.mp h2
      simp only [parse_command_rec]
      cases hsemi : strchr b ';' with
      | some i =>
        have hi : i < b.length := strchr_lt hsemi
        have e1 : parse_command_rec g₁ (b.take i) = parse_command_rec g₂ (b.take i) :=
          ih g₂ _ (by rw [List.length_take]; omega) (by rw [List.length_take]; omega)
        have e2 : parse_command_rec g₁ (b.drop (i + 1)) = parse_command_rec g₂ (b.drop (i + 1)) :=
          ih g₂ _ (by rw [List.length_drop]; omega) (by rw [List.length_drop]; omega)
        simp only [e1, e2]
      | none =>
        cases hpipe : strchr b '|' with
        | some i =>
          have hi : i < b.length := strchr_lt hpipe
          have e1 : parse_command_rec g₁ (b.take i) = parse_command_rec g₂ (b.take i) :=
            ih g₂ _ (by rw [List.length_take]; omega) (by rw [List.length_take]; omega)
          have e2 : parse_command_rec g₁ (b.drop (i + 1)) = parse_command_rec g₂ (b.drop (i + 1)) :=
            ih g₂ _ (by rw [List.length_drop]; omega) (by rw [List.length_drop]; omega)
          simp only [e1, e2]
        | none =>
          cases hgt : strrchr b '>' with
          | some jr =>
            cases hlt : strrchr b '<' with
            | some jl =>
              have hjr : jr < b.length := strrchr_lt hgt
              have hjl : jl < b.length := strrchr_lt hlt
              have hj : (if jr < jl then jl else jr) < b.length := by
                split <;> assumption
              have e1 : parse_command_rec g₁ (b.take (if jr < jl then jl else jr)) =
                  parse_command_rec g₂ (b.take (if jr < jl then jl else jr)) :=
                ih g₂ _ (by rw [List.length_take]; omega) (by rw [List.length_take]; omega)
              simp only [e1]
            | none =>
              have hj : jr < b.length := strrchr_lt hgt
              have e1 : parse_command_rec g₁ (b.take jr) = parse_command_rec g₂ (b.take jr) :=
                ih g₂ _ (by rw [List.length_take]; omega) (by rw [List.length_take]; omega)
              simp only [e1]
          | none =>
            cases hlt : strrchr b '<' with
            | some jl =>
              have hj : jl < b.length := strrchr_lt hlt
              have e1 : parse_command_rec g₁ (b.take jl) = parse_command_rec g₂ (b.take jl) :=
                ih g₂ _ (by rw [List.length_take]; omega) (by rw [List.length_take]; omega)
              simp only [e1]
            | none => rfl

/-- Any fuel larger than the buffer length computes `parse_command`. -/
theorem parse_command_rec_eq {f : Nat} {b : List Char} (h : b.length < f) :
    parse_command_rec f b = parse_command b :=
  parse_command_rec_congr f (b.length + 1) b h (Nat.lt_succ_self _)

/-! ### Branch equations of `parse_command` -/

/-- A `';'` in the buffer dispatches to `parse_list` at its first position
(lines 290-295). -/
theorem parse_command_semi {b : List Char} {i : Nat} (h : strchr b ';' = some i) :
    parse_command b = parse_list b i := by
  have hi : i < b.length := strchr_lt h
  show parse_command_rec (b.length + 1) b = parse_list b i
  simp only [parse_command_rec, h]
  rw [parse_command_rec_eq (by rw [List.length_take]; omega)]
  simp only [parse_command_rec_eq (show (b.drop (i + 1)).length < b.length by
    rw [List.length_drop]; omega)]
  rfl

/-- With no `';'`, a `'|'` dispatches to `parse_pipe` at its first position
(lines 297-302). -/
theorem parse_command_pipe {b : List Char} {i : Nat}
    (hs : strchr b ';' = none) (h : strchr b '|' = some i) :
    parse_command b = parse_pipe b i := by
  have hi : i < b.length := strchr_lt h
  show parse_command_rec (b.length + 1) b = parse_pipe b i
  simp only [parse_command_rec, hs, h]
  rw [parse_command_rec_eq (by rw [List.length_take]; omega)]
  simp only [parse_command_rec_eq (show (b.drop (i + 1)).length < b.length by
    rw [List.length_drop]; omega)]
  rfl

/-- With no `';'` and no `'|'` but both `'>'` and `'<'` present, the split is
at whichever of the two last occurrences has the larger offset
(lines 318-335: the source compares the pointers and recurses on the other
one's side). -/
theorem parse_command_both_redirects {b : List Char} {jr jl : Nat}
    (hs : strchr b ';' = none) (hp : strchr b '|' = none)
    (hr : strrchr b '>' = some jr) (hl : strrchr b '<' = some jl) :
    parse_command b = parse_redirection b (if jr < jl then jl else jr) := by
  have hjr : jr < b.length := strrchr_lt hr
  have hjl : jl < b.length := strrchr_lt hl
  have hj : (if jr < jl then jl else jr) < b.length := by split <;> assumption
  show parse_command_rec (b.length + 1) b = _
  simp only [parse_command_rec, hs, hp, hr, hl]
  rw [parse_command_rec_eq (by rw [List.length_take]; omega)]
  rfl

/-- With no `';'` and no `'|'` and only `'>'` present, the split is at the
last `'>'` (lines 304-309). -/
theorem parse_command_gt {b : List Char} {j : Nat}
    (hs : strchr b ';' = none) (hp : strchr b '|' = none)
    (hr : strrchr b '>' = some j) (hl : strrchr b '<' = none) :
    parse_command b = parse_redirection b j := by
  have hj : j < b.length := strrchr_lt hr
  show parse_command_rec (b.length + 1) b = _
  simp only [parse_command_rec, hs, hp, hr, hl]
  rw [parse_command_rec_eq (by rw [List.length_take]; omega)]
  rfl

/-- With no `';'` and no `'|'` and only `'<'` present, the split is at the
last `'<'` (lines 311-316). -/
theorem parse_command_lt {b : List Char} {j : Nat}
    (hs : strchr b ';' = none) (hp : strchr b '|' = none)
    (hr : strrchr b '>' = none) (hl : strrchr b '<' = some j) :
    parse_command b = parse_redirection b j := by
  have hj : j < b.length := strrchr_lt hl
  show parse_command_rec (b.length + 1) b = _
  simp only [parse_command_rec, hs, hp, hr, hl]
  rw [parse_command_rec_eq (by rw [List.length_take]; omega)]
  rfl

/-- With none of the operator characters present, the line is an `Execute`
node (lines 337-339). -/
theorem parse_command_exec {b : List Char}
    (hs : strchr b ';' = none) (hp : strchr b '|' = none)
    (hr : strrchr b '>' = none) (hl : strrchr b '<' = none) :
    parse_command b = Except.ok (parse_execute b) := by
  show parse_command_rec (b.length + 1) b = _
  simp only [parse_command_rec, hs, hp, hr, hl]

/-! ### Lemmas about the specification-side tokenizer -/

theorem spec_tokens_go_some :
    ∀ (l cur : List Char), spec_tokens_go (some cur) l =
      (cur.reverse ++ l.takeWhile nonWs) :: spec_tokens_go none (l.dropWhile nonWs) := by
  intro l
  induction l with
  | nil => intro cur; simp [spec_tokens_go, List.takeWhile, List.dropWhile]
  | cons c cs ih =>
    intro cur
    by_cases hc : isWs c
    · have hnw : nonWs c = false := by simp [nonWs, hc]
      rw [List.takeWhile_cons_of_neg (by simp [hnw]),
        List.dropWhile_cons_of_neg (by simp [hnw])]
      simp only [spec_tokens_go, if_pos hc, List.append_nil]
    · have hnw : nonWs c = true := by simp [nonWs] at hc ⊢; exact hc
      rw [List.takeWhile_cons_of_pos (by simp [hnw]),
        List.dropWhile_cons_of_pos (by simp [hnw])]
      simp only [spec_tokens_go, if_neg hc]
      rw [ih (c :: cur)]
      simp

theorem spec_tokens_cons_ws {c : Char} {cs : List Char} (h : isWs c = true) :
    spec_tokens (c :: cs) = spec_tokens cs := by
  simp [spec_tokens, spec_tokens_go, h]

theorem spec_tokens_cons_nonws {c : Char} {cs : List Char} (h : isWs c = false) :
    spec_tokens (c :: cs) =
      (c :: cs.takeWhile nonWs) :: spec_tokens (cs.dropWhile nonWs) := by
  simp only [spec_tokens, spec_tokens_go, h, Bool.false_eq_true, if_false]
  rw [spec_tokens_go_some]
  simp

theorem spec_tokens_dropWhile (l : List Char) :
    spec_tokens (l.dropWhile isWs) = spec_tokens l := by
  induction l with
  | nil => rfl
  | cons c cs ih =>
    by_cases hc : isWs c
    · rw [List.dropWhile_cons_of_pos hc, ih, spec_tokens_cons_ws hc]
    · rw [List.dropWhile_cons_of_neg hc]

/-! ### The `parse_execute` loop produces the specification tokens -/

/-- Core tokenization lemma: when the remaining line holds at most `cap + 1`
tokens, the assignment just performed plus the loop's further assignments
hold exactly the specification tokens of the remaining line. -/
theorem loop_tokens (cap : Nat) :
    ∀ (argi : Nat) (c : Char) (cs : List Char), isWs c = false →
      (spec_tokens (c :: cs)).length ≤ cap + 1 →
      ((argi, c :: cs) :: parse_execute_loop cap argi (c :: cs)).map token_value
        = spec_tokens (c :: cs) := by
  induction cap with
  | zero =>
    intro argi c cs hc hlen
    have hnwc : nonWs c = true := by simp [nonWs, hc]
    have htv : token_value (argi, c :: cs) = c :: cs.takeWhile nonWs := by
      simp [token_value, List.takeWhile_cons_of_pos hnwc]
    rw [spec_tokens_cons_nonws hc] at hlen ⊢
    have hnil : spec_tokens (cs.dropWhile nonWs) = [] := by
      simp only [List.length_cons] at hlen
      exact List.eq_nil_of_length_eq_zero (by omega)
    rw [hnil]
    simp only [parse_execute_loop, List.map_cons, List.map_nil, htv]
  | succ cap ih =>
    intro argi c cs hc hlen
    have hnwc : nonWs c = true := by simp [nonWs, hc]
    have htv : token_value (argi, c :: cs) = c :: cs.takeWhile nonWs := by
      simp [token_value, List.takeWhile_cons_of_pos hnwc]
    rw [spec_tokens_cons_nonws hc] at hlen ⊢
    cases hr : cs.dropWhile nonWs with
    | nil =>
      have hloop : parse_execute_loop (cap + 1) argi (c :: cs) = [] := by
        simp only [parse_execute_loop, List.dropWhile_cons_of_pos hnwc, hr]
      rw [hloop]
      simp only [List.map_cons, List.map_nil, htv]
      rfl
    | cons w tail =>
      have hwws : isWs w = true := by
        have := dropWhile_head_false (p := nonWs) hr
        simp [nonWs] at this
        exact this
      have hback : spec_tokens (w :: tail) = spec_tokens tail := spec_tokens_cons_ws hwws
      cases hrest : tail.dropWhile isWs with
      | nil =>
        have hloop : parse_execute_loop (cap + 1) argi (c :: cs) = [] := by
          simp only [parse_execute_loop, List.dropWhile_cons_of_pos hnwc, hr, hrest]
        have hnil : spec_tokens (w :: tail) = [] := by
          rw [hback, ← spec_tokens_dropWhile tail, hrest]
          rfl
        rw [hloop, hnil]
        simp only [List.map_cons, List.map_nil, htv]
      | cons c' cs' =>
        have hloop : parse_execute_loop (cap + 1) argi (c :: cs)
            = (argi + 1, c' :: cs') :: parse_execute_loop cap (argi + 1) (c' :: cs') := by
          simp only [parse_execute_loop, List.dropWhile_cons_of_pos hnwc, hr, hrest]
        have hc' : isWs c' = false := dropWhile_head_false (p := isWs) hrest
        have hst : spec_tokens (w :: tail) = spec_tokens (c' :: cs') := by
          rw [hback, ← spec_tokens_dropWhile tail, hrest]
        have hlen' : (spec_tokens (c' :: cs')).length ≤ cap + 1 := by
          rw [hr, hst] at hlen
          simp only [List.length_cons] at hlen
          omega
        have hih := ih (argi + 1) c' cs' hc' hlen'
        rw [hloop, hst]
        simp only [List.map_cons] at hih ⊢
        rw [htv, hih]

/-! ### Indices and values of the recorded `argv` assignments -/

theorem length_consecFrom : ∀ (n s : Nat), (consecFrom s n).length = n := by
  intro n
  induction n with
  | zero => intro s; rfl
  | succ n ih => intro s; simp only [consecFrom, List.length_cons, ih]

theorem mem_consecFrom : ∀ {n s i : Nat}, i ∈ consecFrom s n ↔ s ≤ i ∧ i < s + n := by
  intro n
  induction n with
  | zero =>
    intro s i
    constructor
    · intro h; exact absurd h (List.not_mem_nil i)
    · intro h; omega
  | succ n ih =>
    intro s i
    simp only [consecFrom, List.mem_cons, ih]
    omega

theorem filter_consecFrom_lt :
    ∀ (n s m : Nat), (consecFrom s n).filter (fun i => decide (i < m))
      = consecFrom s (min n (m - s)) := by
  intro n
  induction n with
  | zero => intro s m; simp [consecFrom]
  | succ n ih =>
    intro s m
    by_cases hs : s < m
    · have h1 : min (n + 1) (m - s) = min n (m - s - 1) + 1 := by omega
      have h2 : m - (s + 1) = m - s - 1 := by omega
      simp only [consecFrom, List.filter_cons, decide_eq_true hs, ih, h1, h2]
      rfl
    · have h1 : min (n + 1) (m - s) = 0 := by omega
      have h2 : (consecFrom (s + 1) n).filter (fun i => decide (i < m)) = [] := by
        rw [ih]
        have h0 : min n (m - (s + 1)) = 0 := by omega
        rw [h0]
        rfl
      simp only [consecFrom, List.filter_cons, h1]
      rw [decide_eq_false (by omega)]
      simpa using h2

/-- The indices of the loop's assignments are consecutive starting just above
the current argument index. -/
theorem loop_fst_consec (cap : Nat) :
    ∀ (argi : Nat) (b : List Char),
      (parse_execute_loop cap argi b).map Prod.fst
        = consecFrom (argi + 1) (parse_execute_loop cap argi b).length := by
  induction cap with
  | zero => intro argi b; rfl
  | succ cap ih =>
    intro argi b
    cases hr : b.dropWhile nonWs with
    | nil =>
      have hloop : parse_execute_loop (cap + 1) argi b = [] := by
        simp only [parse_execute_loop, hr]
      rw [hloop]; rfl
    | cons w tail =>
      cases hrest : tail.dropWhile isWs with
      | nil =>
        have hloop : parse_execute_loop (cap + 1) argi b = [] := by
          simp only [parse_execute_loop, hr, hrest]
        rw [hloop]; rfl
      | cons c cs =>
        have hloop : parse_execute_loop (cap + 1) argi b
            = (argi + 1, c :: cs) :: parse_execute_loop cap (argi + 1) (c :: cs) := by
          simp only [parse_execute_loop, hr, hrest]
        rw [hloop]
        simp only [List.map_cons, List.length_cons, ih, consecFrom]

/-- Every assignment recorded by the loop stores a suffix that starts with a
non-separator character. -/
theorem loop_snd_nonws (cap : Nat) :
    ∀ (argi : Nat) (b : List Char) (w : Nat × List Char),
      w ∈ parse_execute_loop cap argi b →
      ∃ c cs, w.2 = c :: cs ∧ isWs c = false := by
  induction cap with
  | zero => intro argi b w hw; simp [parse_execute_loop] at hw
  | succ cap ih =>
    intro argi b w hw
    cases hr : b.dropWhile nonWs with
    | nil =>
      rw [show parse_execute_loop (cap + 1) argi b = [] by
        simp only [parse_execute_loop, hr]] at hw
      simp at hw
    | cons v tail =>
      cases hrest : tail.dropWhile isWs with
      | nil =>
        rw [show parse_execute_loop (cap + 1) argi b = [] by
          simp only [parse_execute_loop, hr, hrest]] at hw
        simp at hw
      | cons c cs =>
        rw [show parse_execute_loop (cap + 1) argi b
            = (argi + 1, c :: cs) :: parse_execute_loop cap (argi + 1) (c :: cs) by
          simp only [parse_execute_loop, hr, hrest]] at hw
        rcases List.mem_cons.mp hw with hw | hw
        · exact ⟨c, cs, by rw [hw], dropWhile_head_false (p := isWs) hrest⟩
        · exact ih (argi + 1) (c :: cs) w hw

/-- Folding the writes leaves untouched indices at their initial value. -/
theorem foldl_argv_write_eq :
    ∀ (ws : List (Nat × List Char)) (a : Nat → Option (List Char)) (i : Nat),
      (∀ w ∈ ws, w.1 ≠ i) → ws.foldl argv_write a i = a i := by
  intro ws
  induction ws with
  | nil => intro a i _; rfl
  | cons w ws ih =>
    intro a i h
    simp only [List.foldl_cons]
    rw [ih _ i fun v hv => h v (by simp [hv])]
    simp only [argv_write]
    rw [if_neg fun hh => h w (by simp) hh.symm]

/-- Length of a filtered list of pairs in terms of its mapped first
components. -/
theorem length_filter_fst (p : Nat → Bool) :
    ∀ (ws : List (Nat × List Char)),
      ((ws.filter fun w => p w.1).length) = ((ws.map Prod.fst).filter p).length := by
  intro ws
  induction ws with
  | nil => rfl
  | cons w ws ih => cases hw : p w.1 <;> simp [List.filter_cons, hw, ih]

/-! ### Derived facts about `parse_execute` -/

/-- With at most 16 tokens on the line, the parsed argument list is exactly
the specification tokens. -/
theorem parse_execute_args_eq_spec {line : List Char}
    (h : (spec_tokens line).length ≤ 16) :
    parse_execute_args line = spec_tokens line := by
  cases hb : line.dropWhile isWs with
  | nil =>
    have hw : parse_execute_writes line = [] := by
      simp only [parse_execute_writes, hb]
    rw [← spec_tokens_dropWhile line, hb]
    simp [parse_execute_args, hw, spec_tokens, spec_tokens_go]
  | cons c cs =>
    have hw : parse_execute_writes line = (0, c :: cs) :: parse_execute_loop 16 0 (c :: cs) := by
      simp only [parse_execute_writes, hb]
    have hc : isWs c = false := dropWhile_head_false (p := isWs) hb
    have hst : spec_tokens (c :: cs) = spec_tokens line := by
      rw [← spec_tokens_dropWhile line, hb]
    have hcount : (spec_tokens (c :: cs)).length ≤ 16 := by rw [hst]; exact h
    have htok := loop_tokens 16 0 c cs hc (le_trans hcount (by omega))
    have hlenw : ((0, c :: cs) :: parse_execute_loop 16 0 (c :: cs)).length
        = (spec_tokens (c :: cs)).length := by
      rw [← htok, List.length_map]
    have hall : ∀ w ∈ (0, c :: cs) :: parse_execute_loop 16 0 (c :: cs),
        decide (w.1 < 16) = true := by
      intro w hwmem
      rcases List.mem_cons.mp hwmem with hwm | hwm
      · rw [hwm]; simp
      · have hmem : w.1 ∈ (parse_execute_loop 16 0 (c :: cs)).map Prod.fst :=
          List.mem_map_of_mem Prod.fst hwm
        rw [loop_fst_consec] at hmem
        have hb2 := mem_consecFrom.mp hmem
        have hlp : (parse_execute_loop 16 0 (c :: cs)).length ≤ 15 := by
          simp only [List.length_cons] at hlenw
          omega
        simp only [decide_eq_true_eq]
        omega
    unfold parse_execute_args
    rw [hw, List.filter_eq_self.mpr hall, htok, hst]

/-- Every stored argument value is a non-empty token free of separator
characters. -/
theorem parse_execute_args_values {line : List Char} {t : List Char}
    (ht : t ∈ parse_execute_args line) : t ≠ [] ∧ ∀ ch ∈ t, isWs ch = false := by
  unfold parse_execute_args at ht
  obtain ⟨w, hwf, hwt⟩ := List.mem_map.mp ht
  have hwmem : w ∈ parse_execute_writes line := List.mem_of_mem_filter hwf
  have hhead : ∃ c cs, w.2 = c :: cs ∧ isWs c = false := by
    cases hb : line.dropWhile isWs with
    | nil =>
      rw [show parse_execute_writes line = [] by
        simp only [parse_execute_writes, hb]] at hwmem
      exact absurd hwmem (List.not_mem_nil w)
    | cons c cs =>
      rw [show parse_execute_writes line = (0, c :: cs) :: parse_execute_loop 16 0 (c :: cs) by
        simp only [parse_execute_writes, hb]] at hwmem
      rcases List.mem_cons.mp hwmem with hwm | hwm
      · exact ⟨c, cs, by rw [hwm], dropWhile_head_false (p := isWs) hb⟩
      · exact loop_snd_nonws 16 0 (c :: cs) w hwm

  obtain ⟨c, cs, hw2, hc⟩ := hhead
  constructor
  · rw [← hwt]
    unfold token_value
    rw [hw2, List.takeWhile_cons_of_pos (by simp [nonWs, hc])]
    simp
  · intro ch hch
    rw [← hwt] at hch
    unfold token_value at hch
    have := List.mem_takeWhile_imp hch
    simp [nonWs] at this
    exact this

/-- Slots of the `argv` array beyond the last stored argument keep their
`memset` value. -/
theorem parse_execute_argv_none {line : List Char} {i : Nat} (h16 : i < 16)
    (hlen : (parse_execute_args line).length ≤ i) :
    parse_execute_argv line i = none := by
  cases hb : line.dropWhile isWs with
  | nil =>
    have hw : parse_execute_writes line = [] := by
      simp only [parse_execute_writes, hb]
    simp [parse_execute_argv, hw]
  | cons c cs =>
    have hw : parse_execute_writes line = (0, c :: cs) :: parse_execute_loop 16 0 (c :: cs) := by
      simp only [parse_execute_writes, hb]
    have hmf : (parse_execute_writes line).map Prod.fst
        = consecFrom 0 ((parse_execute_loop 16 0 (c :: cs)).length + 1) := by
      rw [hw]
      simp only [List.map_cons, loop_fst_consec]
      rfl
    have hlen2 : (parse_execute_args line).length
        = min ((parse_execute_loop 16 0 (c :: cs)).length + 1) 16 := by
      unfold parse_execute_args
      rw [List.length_map,
        length_filter_fst (fun j => decide (j < 16)) (parse_execute_writes line),
        hmf, filter_consecFrom_lt, length_consecFrom]
    have hgap : (parse_execute_loop 16 0 (c :: cs)).length + 1 ≤ i := by
      rw [hlen2] at hlen
      omega
    have hne : ∀ w ∈ parse_execute_writes line, w.1 ≠ i := by
      intro w hwm
      have hmem : w.1 ∈ (parse_execute_writes line).map Prod.fst :=
        List.mem_map_of_mem Prod.fst hwm
      rw [hmf] at hmem
      have := mem_consecFrom.mp hmem
      omega
    unfold parse_execute_argv
    exact foldl_argv_write_eq _ _ i hne

/-! ### Claim theorems -/

/-- Claim C1, counterexample: on a non-empty Execute node whose `exec`
returns, `run_command` does write the diagnostic, but control then falls out
of the `switch` to the `exit(0)` at line 271, so the process exits with
status 0 — refuting the claimed exit status 1. -/
theorem c1_counterexample :
    run_command_execute ["nosuchprog".toList] false =
      ⟨[("nosuchprog".toList, ["nosuchprog".toList])],
        [failed_to_execute_msg "nosuchprog".toList], some 0⟩
    ∧ (some 0 : Option Nat) ≠ some 1 := by
  constructor
  · rfl
  · decide

/-- Claim C1, amended: for every non-empty Execute node whose program cannot
be launched (the `exec` primitive returns), `run_command` writes the
diagnostic `"Failed to execute <program>"` to the error stream and then
terminates the process with exit status 0 (the fall-through `exit(0)` after
the switch), not 1. -/
theorem c1_amended_theorem : ∀ (prog : List Char) (rest : List (List Char)),
    run_command_execute (prog :: rest) false =
      ⟨[(prog, prog :: rest)], [failed_to_execute_msg prog], some 0⟩ := by
  intro prog rest
  rfl

/-- Claim C2, counterexample: on the spec's own example `"cmd < in > out"`
the code splits at the last `'>'` (offset 9, the larger of the two), making
the write redirection the outer node; the claim's smaller-offset split would
instead give the `'<'` redirection (file `"in"`, read-only, fd 0) as the
outer node, which is not what the parser produces. -/
theorem c2_counterexample :
    parse_command ("cmd < in > out".toList) =
      Except.ok (Command.redirection
        (Command.redirection (Command.execute ["cmd".toList]) ("in".toList) O_RDONLY 0)
        ("out".toList) (O_WRONLY ||| O_CREATE) 1)
    ∧ (Except.ok (Command.redirection
        (Command.redirection (Command.execute ["cmd".toList]) ("in".toList) O_RDONLY 0)
        ("out".toList) (O_WRONLY ||| O_CREATE) 1) : Except FatalError Command)
      ≠ Except.ok (Command.redirection (Command.execute ["cmd".toList]) ("in".toList)
          O_RDONLY 0) := by
  constructor <;> decide

/-- Claim C2, amended: for every input line that contains both `'>'` and
`'<'` but no `';'` and no `'|'`, `parse_command` splits at whichever of the
last `'>'` and the last `'<'` has the larger offset in the buffer: that
symbol becomes the outer Redirect node, and the other redirection is handled
by recursively parsing the inner text before the split. -/
theorem c2_amended_theorem :
    (∀ (b : List Char) (jr jl : Nat), strchr b ';' = none → strchr b '|' = none →
      strrchr b '>' = some jr → strrchr b '<' = some jl →
      parse_command b = parse_redirection b (if jr < jl then jl else jr))
    ∧ parse_command ("cmd < in > out".toList) =
      Except.ok (Command.redirection
        (Command.redirection (Command.execute ["cmd".toList]) ("in".toList) O_RDONLY 0)
        ("out".toList) (O_WRONLY ||| O_CREATE) 1) :=
  ⟨fun _ _ _ hs hp hr hl => parse_command_both_redirects hs hp hr hl, by decide⟩

/-- Claim C2, amended witness: on `"a<b>c"` the last `'>'` is at offset 3 and
the last `'<'` at offset 1, and the parser splits at the larger offset 3. -/
theorem c2_amended_witness :
    parse_command ("a<b>c".toList) =
      parse_redirection ("a<b>c".toList) (if 3 < 1 then 1 else 3) :=
  c2_amended_theorem.1 ("a<b>c".toList) 3 1 (by decide) (by decide) (by decide) (by decide)

/-- Claim C3: on a line of 20 whitespace-separated tokens, `parse_execute`
stores exactly the first 16 tokens in the argument list, but it also performs
one further pointer store at index 16 — one slot past the end of
`char* argv[MAXIMUM_ARGUMENTS]` — exhibiting the out-of-bounds write the
claim rules out (the loop guard `argi < 16` is re-checked only after the
assignment `argv[argi] = buffer` at line 382 has happened with `argi == 16`). -/
theorem c3_theorem :
    parse_execute_args ("a b c d e f g h i j k l m n o p q r s t".toList)
      = ["a".toList, "b".toList, "c".toList, "d".toList, "e".toList, "f".toList,
         "g".toList, "h".toList, "i".toList, "j".toList, "k".toList, "l".toList,
         "m".toList, "n".toList, "o".toList, "p".toList]
    ∧ parse_execute_argv ("a b c d e f g h i j k l m n o p q r s t".toList) 16
      = some ("q r s t".toList) := by
  constructor <;> decide

/-- Claim C4: `parse_redirection` builds, for `'<'`, a Redirect node with
read-only mode bound to descriptor 0 and, for `'>'`, one with
write-create mode (`O_WRONLY | O_CREATE`) bound to descriptor 1. -/
theorem c4_theorem :
    (∀ (inner : Command) (fname : List Char),
      create_redirection_from_direction '<' inner fname
        = Command.redirection inner fname O_RDONLY 0
      ∧ create_redirection_from_direction '>' inner fname
        = Command.redirection inner fname (O_WRONLY ||| O_CREATE) 1)
    ∧ (∀ (b : List Char) (i : Nat), b.getD i ' ' = '<' →
        parse_redirection b i =
          (parse_command (b.take i)).bind fun inner =>
          (parse_redirection_file_name (b.drop (i + 1))).bind fun fname =>
          Except.ok (Command.redirection inner fname O_RDONLY 0))
    ∧ (∀ (b : List Char) (i : Nat), b.getD i ' ' = '>' →
        parse_redirection b i =
          (parse_command (b.take i)).bind fun inner =>
          (parse_redirection_file_name (b.drop (i + 1))).bind fun fname =>
          Except.ok (Command.redirection inner fname (O_WRONLY ||| O_CREATE) 1)) := by
  refine ⟨fun inner fname => ⟨?_, ?_⟩, fun b i h => ?_, fun b i h => ?_⟩
  · simp [create_redirection_from_direction]
  · simp [create_redirection_from_direction]
  · unfold parse_redirection
    rw [h]
    simp [create_redirection_from_direction]
  · unfold parse_redirection
    rw [h]
    simp [create_redirection_from_direction]

/-- Claim C4, witness: the redirection split of `"a<b"` at offset 1. -/
theorem c4_witness :
    parse_redirection ("a<b".toList) 1 =
      (parse_command (("a<b".toList).take 1)).bind fun inner =>
      (parse_redirection_file_name (("a<b".toList).drop 2)).bind fun fname =>
      Except.ok (Command.redirection inner fname O_RDONLY 0) :=
  c4_theorem.2.1 ("a<b".toList) 1 (by decide)

/-- Claim C5: a `';'` in the line makes `parse_command` split at its first
occurrence via `parse_list`, and `"a ; b ; c"` parses to
`Sequence(Execute(a), Sequence(Execute(b), Execute(c)))`. -/
theorem c5_theorem :
    (∀ (b : List Char) (i : Nat), strchr b ';' = some i →
      parse_command b = parse_list b i)
    ∧ parse_command ("a ; b ; c".toList) =
      Except.ok (Command.list (Command.execute ["a".toList])
        (Command.list (Command.execute ["b".toList]) (Command.execute ["c".toList]))) :=
  ⟨fun _ _ h => parse_command_semi h, by decide⟩

/-- Claim C5, witness: `"x ; y"` splits at the first `';'`, offset 2. -/
theorem c5_witness :
    parse_command ("x ; y".toList) = parse_list ("x ; y".toList) 2 :=
  c5_theorem.1 ("x ; y".toList) 2 (by decide)

/-- Claim C6: an Execute-only line (no operator characters) with at most 16
whitespace-separated tokens parses to an Execute node whose argument list is
exactly those tokens in order; each token is a separate string, modelling the
individual NUL terminator the parser writes after it. -/
theorem c6_theorem : ∀ (line : List Char),
    strchr line ';' = none → strchr line '|' = none →
    strrchr line '>' = none → strrchr line '<' = none →
    (spec_tokens line).length ≤ 16 →
    parse_command line = Except.ok (Command.execute (spec_tokens line)) := by
  intro line h1 h2 h3 h4 h5
  rw [parse_command_exec h1 h2 h3 h4]
  unfold parse_execute
  rw [parse_execute_args_eq_spec h5]

/-- Claim C6, witness: the three tokens of `"ls -l foo"`. -/
theorem c6_witness :
    parse_command ("ls -l foo".toList)
      = Except.ok (Command.execute (spec_tokens ("ls -l foo".toList))) :=
  c6_theorem ("ls -l foo".toList) (by decide) (by decide) (by decide) (by decide)
    (by decide)

/-- Claim C7: a line of only whitespace parses to an Execute node with zero
arguments, and `run_command` on such a node exits with status 1 (line 198)
without issuing any `exec` call. -/
theorem c7_theorem : ∀ (line : List Char), (∀ ch ∈ line, isWs ch = true) →
    parse_command line = Except.ok (Command.execute [])
    ∧ ∀ (execOk : Bool), run_command_execute [] execOk = ⟨[], [], some 1⟩ := by
  intro line hall
  have hno : ∀ (c : Char), isWs c = false → ∀ x ∈ line, x ≠ c := by
    intro c hc x hx hxc
    have hxw := hall x hx
    rw [hxc, hc] at hxw
    cases hxw
  constructor
  · rw [parse_command_exec (strchr_eq_none (hno ';' (by decide)))
      (strchr_eq_none (hno '|' (by decide)))
      (strrchr_eq_none (hno '>' (by decide)))
      (strrchr_eq_none (hno '<' (by decide)))]
    have hb : line.dropWhile isWs = [] := dropWhile_nil_of_all hall
    unfold parse_execute parse_execute_args
    rw [show parse_execute_writes line = [] by simp only [parse_execute_writes, hb]]
    rfl
  · intro execOk
    rfl

/-- Claim C7, witness: a line of three spaces. -/
theorem c7_witness :
    parse_command ("   ".toList) = Except.ok (Command.execute [])
    ∧ ∀ (execOk : Bool), run_command_execute [] execOk = ⟨[], [], some 1⟩ :=
  c7_theorem ("   ".toList) (by decide)

/-- Claim C8: a redirection whose remaining text holds no non-whitespace
character makes `parse_redirection_file_name` fail fatally with the exact
message `"Failed to parse filename for redirection"` and exit status 1;
in particular `"cmd > "` makes the whole parse return that fatal error, so
no Redirect node is completed and `run_command` is never reached. -/
theorem c8_theorem :
    (∀ (rest : List Char), (∀ ch ∈ rest, isWs ch = true) →
      parse_redirection_file_name rest = Except.error (error failed_filename_msg))
    ∧ parse_command ("cmd > ".toList) = Except.error (error failed_filename_msg) := by
  constructor
  · intro rest h
    simp only [parse_redirection_file_name, dropWhile_nil_of_all h]
    rfl
  · decide

/-- Claim C8, witness: a filename consisting of two spaces. -/
theorem c8_witness :
    parse_redirection_file_name ("  ".toList) = Except.error (error failed_filename_msg) :=
  c8_theorem.1 ("  ".toList) (by decide)

/-- Claim C9: with no `';'`, a `'|'` makes `parse_command` split at its first
occurrence via `parse_pipe` before any redirection is considered, and
`"a | b > f"` parses to `Pipe(Execute(a), Redirect(Execute(b), "f", write))`. -/
theorem c9_theorem :
    (∀ (b : List Char) (i : Nat), strchr b ';' = none → strchr b '|' = some i →
      parse_command b = parse_pipe b i)
    ∧ parse_command ("a | b > f".toList) =
      Except.ok (Command.pipe (Command.execute ["a".toList])
        (Command.redirection (Command.execute ["b".toList]) ("f".toList)
          (O_WRONLY ||| O_CREATE) 1)) :=
  ⟨fun _ _ hs hp => parse_command_pipe hs hp, by decide⟩

/-- Claim C9, witness: `"x | y"` splits at the `'|'` at offset 2. -/
theorem c9_witness :
    parse_command ("x | y".toList) = parse_pipe ("x | y".toList) 2 :=
  c9_theorem.1 ("x | y".toList) 2 (by decide) (by decide)

/-- Claim C10: every argument stored in an occupied `argv` slot is a
non-empty string with no whitespace character in it, and every slot of the
16-element array after the last stored argument still holds the null pointer
written by `memset`. -/
theorem c10_theorem : ∀ (line : List Char),
    (∀ t ∈ parse_execute_args line, t ≠ [] ∧ ∀ ch ∈ t, isWs ch = false)
    ∧ (∀ i : Nat, i < 16 → (parse_execute_args line).length ≤ i →
        parse_execute_argv line i = none) :=
  fun _ => ⟨fun _ ht => parse_execute_args_values ht,
    fun _ h1 h2 => parse_execute_argv_none h1 h2⟩

/-- Claim C10, witness: on `"ls x"` the stored token `"ls"` is non-empty and
whitespace-free, and slot 7 is still null. -/
theorem c10_witness :
    ("ls".toList ≠ [] ∧ ∀ ch ∈ "ls".toList, isWs ch = false)
    ∧ parse_execute_argv ("ls x".toList) 7 = none :=
  ⟨(c10_theorem ("ls x".toList)).1 ("ls".toList) (by decide),
    (c10_theorem ("ls x".toList)).2 7 (by decide) (by decide)⟩

end MyShell
